import Mathlib

set_option maxRecDepth 100000

/-!
Verification of the anti-repetition selection engine of `main.py`:
fingerprinting (`_hash_text`), the state store (`_user_bucket`, `_remember`,
`_load_state`), and the two pickers (`pick_non_repeating`,
`pick_image_non_repeating`).  Python dicts are embedded as insertion-ordered
association lists, `random.choice` as an index oracle taken modulo the pool
size, and file I/O as explicit state threading.
-/

namespace Oracle

/-! ### SHA-1 (embedding of `hashlib.sha1`, used by `_hash_text`) -/

/-- Truncation to a 32-bit word. -/
def w32 (n : Nat) : Nat := n % 4294967296

/-- Left rotation of a 32-bit word by `k`. -/
def rotl32 (k x : Nat) : Nat := w32 ((x <<< k) ||| (x >>> (32 - k)))

/-- SHA-1 round function `f_t(b, c, d)`. -/
def sha1F (t b c d : Nat) : Nat :=
  if t < 20 then (b &&& c) ||| ((b ^^^ 4294967295) &&& d)
  else if t < 40 then b ^^^ c ^^^ d
  else if t < 60 then (b &&& c) ||| (b &&& d) ||| (c &&& d)
  else b ^^^ c ^^^ d

/-- SHA-1 round constant `K_t`. -/
def sha1K (t : Nat) : Nat :=
  if t < 20 then 0x5A827999
  else if t < 40 then 0x6ED9EBA1
  else if t < 60 then 0x8F1BBCDC
  else 0xCA62C1D6

/-- Big-endian byte decomposition of `x` into `n` bytes. -/
def bytesBE : Nat → Nat → List Nat
  | 0, _ => []
  | n + 1, x => bytesBE n (x / 256) ++ [x % 256]

/-- Big-endian word from a list of bytes. -/
def beWord (l : List Nat) : Nat := l.foldl (fun a b => a * 256 + b) 0

/-- The sixteen 32-bit words of one 64-byte block. -/
def blockWords (block : List Nat) : List Nat :=
  (List.range 16).map (fun i => beWord ((block.drop (4 * i)).take 4))

/-- Message-schedule expansion over the reversed word list (head is the
most recent word, so `W_(t-3)` is at index 2, `W_(t-8)` at 7, `W_(t-14)` at
13 and `W_(t-16)` at 15):
`W_t = rotl1 (W_(t-3) xor W_(t-8) xor W_(t-14) xor W_(t-16))`. -/
def extendWRev : Nat → List Nat → List Nat
  | 0, w => w
  | n + 1, w =>
    extendWRev n
      (rotl32 1 ((w.getD 2 0) ^^^ (w.getD 7 0) ^^^ (w.getD 13 0) ^^^ (w.getD 15 0)) :: w)

/-- The eighty words `W_0 … W_79` of the message schedule of one block. -/
def extendW (w : List Nat) : List Nat := (extendWRev 64 w.reverse).reverse

/-- One SHA-1 round on the five-word state, consuming `(t, W_t)`. -/
def sha1Round : Nat × Nat × Nat × Nat × Nat → Nat × Nat → Nat × Nat × Nat × Nat × Nat :=
  fun s tw =>
    (w32 (rotl32 5 s.1 + sha1F tw.1 s.2.1 s.2.2.1 s.2.2.2.1 + s.2.2.2.2 + sha1K tw.1 + tw.2),
      s.1, rotl32 30 s.2.1, s.2.2.1, s.2.2.2.1)

/-- Compress one 64-byte block into the running hash state. -/
def processBlock (h : Nat × Nat × Nat × Nat × Nat) (block : List Nat) :
    Nat × Nat × Nat × Nat × Nat :=
  let s := (List.enum (extendW (blockWords block))).foldl sha1Round h
  (w32 (h.1 + s.1), w32 (h.2.1 + s.2.1), w32 (h.2.2.1 + s.2.2.1),
    w32 (h.2.2.2.1 + s.2.2.2.1), w32 (h.2.2.2.2 + s.2.2.2.2))

/-- SHA-1 padding: append `0x80`, zeros to 56 mod 64, then the 64-bit
big-endian bit length. -/
def sha1Pad (msg : List Nat) : List Nat :=
  msg ++ [128] ++ List.replicate ((119 - msg.length % 64) % 64) 0 ++ bytesBE 8 (msg.length * 8)

/-- Process `n` consecutive 64-byte blocks. -/
def sha1Iter : Nat → Nat × Nat × Nat × Nat × Nat → List Nat → Nat × Nat × Nat × Nat × Nat
  | 0, h, _ => h
  | n + 1, h, l => sha1Iter n (processBlock h (l.take 64)) (l.drop 64)

/-- The 20-byte SHA-1 digest of a byte sequence. -/
def sha1Bytes (msg : List Nat) : List Nat :=
  let padded := sha1Pad msg
  let h := sha1Iter (padded.length / 64)
    (0x67452301, 0xEFCDAB89, 0x98BADCFE, 0x10325476, 0xC3D2E1F0) padded
  bytesBE 4 h.1 ++ bytesBE 4 h.2.1 ++ bytesBE 4 h.2.2.1 ++
    bytesBE 4 h.2.2.2.1 ++ bytesBE 4 h.2.2.2.2

/-! ### UTF-8 encoding (embedding of `str.encode("utf-8")`) -/

/-- UTF-8 encoding of a single (non-surrogate) code point. -/
def utf8EncodeChar (c : Char) : List Nat :=
  let n := c.toNat
  if n < 128 then [n]
  else if n < 2048 then [192 + n / 64, 128 + n % 64]
  else if n < 65536 then [224 + n / 4096, 128 + n / 64 % 64, 128 + n % 64]
  else [240 + n / 262144, 128 + n / 4096 % 64, 128 + n / 64 % 64, 128 + n % 64]

/-- UTF-8 encoding of a string as a byte list. -/
def utf8Encode (s : String) : List Nat := s.data.flatMap utf8EncodeChar

/-! ### Fingerprints: `_hash_text` -/

/-- The sixteen lowercase hexadecimal digit characters. -/
def hexDigits : List Char := "0123456789abcdef".data

/-- Hex digit character for a nibble. -/
def hexChar (n : Nat) : Char := hexDigits.getD n '0'

/-- The two hex characters of one byte. -/
def byteHexChars (b : Nat) : List Char := [hexChar (b / 16), hexChar (b % 16)]

/-- Embedding of `_hash_text(s)`: `sha1(s.encode("utf-8")).hexdigest()[:16]`
(main.py lines 57-58). -/
def _hash_text (s : String) : String :=
  String.mk (((sha1Bytes (utf8Encode s)).flatMap byteHexChars).take 16)

example : _hash_text "" = "da39a3ee5e6b4b0d" := by decide
example : _hash_text "abc" = "a9993e364706816a" := by decide

/-! ### The state root

`state.json` is a JSON object mapping `str(user_id)` to an object mapping
category keys to either a list of fingerprints (a recency bucket) or a
filename string (a `…__last_image` marker).  We embed such JSON values as
`JVal`, and the two dict levels as insertion-ordered association lists,
mirroring Python dict semantics. -/

inductive JVal where
  | arr : List String → JVal
  | str : String → JVal
deriving DecidableEq, Repr

abbrev UMap := List (String × JVal)

abbrev St := List (String × UMap)

/-- Python `d[k]` lookup (first matching key; our operations keep keys unique). -/
def lookupKey {α : Type} : List (String × α) → String → Option α
  | [], _ => none
  | (k', v) :: rest, k => if k' = k then some v else lookupKey rest k

/-- Python `d[k] = v`: replace the value at `k`, or append the pair at the
end (dicts are insertion-ordered). -/
def setKey {α : Type} : List (String × α) → String → α → List (String × α)
  | [], k, v => [(k, v)]
  | (k', v') :: rest, k, v => if k' = k then (k, v) :: rest else (k', v') :: setKey rest k v

/-- Python `d.setdefault(k, d0)`: return the stored value if `k` is present,
else insert `d0` at the end and return it; the second component is the
updated dict. -/
def setdefault {α : Type} : List (String × α) → String → α → α × List (String × α)
  | [], k, d => (d, [(k, d)])
  | (k', v') :: rest, k, d =>
    if k' = k then (v', (k', v') :: rest)
    else
      let p := setdefault rest k d
      (p.1, (k', v') :: p.2)

/-- Constant `RECENT_N = 20` (main.py line 34): depth of the anti-repeat history. -/
def RECENT_N : Nat := 20

/-- Constant `IMG_EXTS` (main.py line 35). -/
def IMG_EXTS : List String := [".jpg", ".jpeg", ".png"]

/-- The possible on-disk situations of `state.json`: absent, present but not
parseable as a state object, or present and valid. -/
inductive StateFile where
  | missing : StateFile
  | corrupt : StateFile
  | valid : St → StateFile

/-- Embedding of `_load_state` (main.py lines 43-49): missing file → `{}`; content on
which `json.loads` fails → the exception is caught, logged, and `{}` is
returned; otherwise the parsed root. -/
def _load_state : StateFile → St
  | .missing => []
  | .corrupt => []
  | .valid st => st

/-- Python `set(x)` elements of a `JVal`: a list yields its elements, a
string yields its characters (as 1-character strings). -/
def jvalElems : JVal → List String
  | .arr l => l
  | .str s => s.data.map (fun c => String.mk [c])

/-- Embedding of `_user_bucket` (main.py lines 60-62):
`u = st.setdefault(str(user_id), {}); return u.setdefault(cat_key, [])`.
Returns the stored value together with the (possibly extended) root. -/
def _user_bucket (st : St) (user_id : Nat) (cat_key : String) : JVal × St :=
  let p := setdefault st (toString user_id) ([] : UMap)
  let q := setdefault p.1 cat_key (JVal.arr [])
  (q.1, setKey p.2 (toString user_id) q.2)

/-- Embedding of `_remember` (main.py lines 64-69): append the fingerprint to the bucket
and drop entries from the front while the length exceeds `RECENT_N`.
Returns `none` when the stored value is a string: `bucket.append` would
raise `AttributeError` (never the case for well-formed state). -/
def _remember (st : St) (user_id : Nat) (cat_key : String) (key : String) : Option St :=
  let p := setdefault st (toString user_id) ([] : UMap)
  let q := setdefault p.1 cat_key (JVal.arr [])
  match q.1 with
  | JVal.str _ => none
  | JVal.arr bucket0 =>
    let bucket1 := bucket0 ++ [key]
    let bucket2 :=
      if RECENT_N < bucket1.length then bucket1.drop (bucket1.length - RECENT_N) else bucket1
    some (setKey p.2 (toString user_id) (setKey q.2 cat_key (JVal.arr bucket2)))

/-- The eligible candidates (main.py line 75):
`[x for x in items if _hash_text(x) not in seen]`. -/
def eligibleOf (items : List String) (seen : List String) : List String :=
  items.filter (fun x => !(seen.contains (_hash_text x)))

/-- Embedding of `pick_non_repeating` (main.py lines 71-83).  `choiceIdx` is the random
oracle: `random.choice(c)` is embedded as `c[choiceIdx % len(c)]` (the pool
is provably non-empty at the choice point).  `_load_state`/`_save_state`
are embedded by threading the persisted root in and out.  `none` models the
`AttributeError` raised by `_remember` on a string-valued entry. -/
def pick_non_repeating (user_id : Nat) (cat_key : String) (items0 : List String)
    (choiceIdx : Nat) (st0 : St) : Option (String × St) :=
  let items := if items0 = [] then ["(нет данных)"] else items0
  let vb := _user_bucket st0 user_id cat_key
  let candidates := eligibleOf items (jvalElems vb.1)
  let cs :=
    if candidates = [] then
      let p := setdefault vb.2 (toString user_id) ([] : UMap)
      (items, setKey p.2 (toString user_id) (setKey p.1 cat_key (JVal.arr [])))
    else (candidates, vb.2)
  let choice := cs.1.getD (choiceIdx % cs.1.length) ""
  (_remember cs.2 user_id cat_key (_hash_text choice)).map (fun st3 => (choice, st3))

/-- Run several consecutive `pick_non_repeating` calls for one
(user, category), threading the persisted state; returns the picked texts. -/
def runPicks (user_id : Nat) (cat_key : String) (items : List String) :
    List Nat → St → Option (List String × St)
  | [], st => some ([], st)
  | i :: is, st =>
    match pick_non_repeating user_id cat_key items i st with
    | none => none
    | some cst =>
      match runPicks user_id cat_key items is cst.2 with
      | none => none
      | some csst => some (cst.1 :: csst.1, csst.2)

/-- The picked texts of `runPicks`. -/
def runPicksResults (user_id : Nat) (cat_key : String) (items : List String)
    (idxs : List Nat) (st : St) : Option (List String) :=
  (runPicks user_id cat_key items idxs st).map (fun p => p.1)

/-! ### Views of the state root used in specifications -/

/-- The raw entry stored under `(ukey, cat_key)`, by raw user key. -/
def entryAtKey (st : St) (ukey : String) (cat_key : String) : Option JVal :=
  match lookupKey st ukey with
  | none => none
  | some u => lookupKey u cat_key

/-- The raw entry stored under `(str(user_id), cat_key)`. -/
def entryAt (st : St) (user_id : Nat) (cat_key : String) : Option JVal :=
  entryAtKey st (toString user_id) cat_key

/-- The recency-bucket view by raw user key: absent entries read as the
empty bucket, string-valued entries (markers) as no bucket. -/
def bviewKey (st : St) (ukey : String) (cat_key : String) : Option (List String) :=
  match entryAtKey st ukey cat_key with
  | none => some []
  | some (JVal.arr l) => some l
  | some (JVal.str _) => none

/-- The recency-bucket view for `(user_id, cat_key)`. -/
def bview (st : St) (user_id : Nat) (cat_key : String) : Option (List String) :=
  bviewKey st (toString user_id) cat_key

/-- Append-then-truncate-from-front: the bucket produced by `_remember`
from an existing bucket `b` and a new fingerprint `k`. -/
def truncAdd (b : List String) (k : String) : List String :=
  let b1 := b ++ [k]
  if RECENT_N < b1.length then b1.drop (b1.length - RECENT_N) else b1

/-- All recency buckets in the root are within the depth bound. -/
def wf_bounded (st : St) : Prop :=
  ∀ uk um, (uk, um) ∈ st → ∀ ck l, (ck, JVal.arr l) ∈ um → l.length ≤ RECENT_N

/-! ### Image picker -/

/-- A directory entry: a name, whether it is a regular file, and its
content (`none` embeds a `read_bytes` failure). -/
structure FileEntry where
  name : String
  is_file : Bool
  bytes : Option (List Nat)
deriving DecidableEq, Repr

/-- Index of the last `.` in a name (Python `str.rfind('.')`), if any. -/
def lastDotIdx (l : List Char) : Option Nat :=
  ((l.enum.filter (fun p => p.2 == '.')).map (fun p => p.1)).getLast?

/-- CPython `PurePath.suffix`: `name[i:]` for `i = name.rfind('.')` when
`0 < i < len(name) - 1`, else `""`. -/
def pySuffix (name : String) : String :=
  match lastDotIdx name.data with
  | none => ""
  | some i =>
    if 0 < i && i < name.data.length - 1 then String.mk (name.data.drop i) else ""

/-- ASCII lowercasing of one character (agrees with Python `str.lower` on
the ASCII extensions compared against `IMG_EXTS`). -/
def asciiLowerChar (c : Char) : Char :=
  if 'A' ≤ c && c ≤ 'Z' then Char.ofNat (c.toNat + 32) else c

/-- ASCII lowercasing of a string. -/
def asciiLower (s : String) : String := String.mk (s.data.map asciiLowerChar)

/-- The image files of a folder (main.py lines 86-90): `none` embeds an
`iterdir` failure, which is caught and treated as an empty listing;
otherwise keep regular files whose lowercased suffix is in `IMG_EXTS`. -/
def imgFiles (folder : Option (List FileEntry)) : List FileEntry :=
  match folder with
  | none => []
  | some entries =>
    entries.filter (fun p => p.is_file && IMG_EXTS.contains (asciiLower (pySuffix p.name)))

/-- The last-image marker `st.get(str(user_id), {}).get(cat_key + "__last_image")`
(main.py lines 94-95); `get` does not mutate. -/
def lastImageView (st : St) (user_id : Nat) (cat_key : String) : Option JVal :=
  match lookupKey st (toString user_id) with
  | none => none
  | some u => lookupKey u (cat_key ++ "__last_image")

/-- Python `p.name != last` for the marker value `last`: a string marker
compares by name; `None` or a non-string value never matches. -/
def neLast (name : String) (last : Option JVal) : Bool :=
  match last with
  | some (JVal.str s) => name != s
  | _ => true

/-- Python `choices = [p for p in imgs if p.name != last] or imgs` (main.py line 96). -/
def imgChoices (st : St) (user_id : Nat) (cat_key : String) (imgs : List FileEntry) :
    List FileEntry :=
  let choices0 := imgs.filter (fun p => neLast p.name (lastImageView st user_id cat_key))
  if choices0 = [] then imgs else choices0

/-- The entry selected by `random.choice(choices)` under the index oracle. -/
def imgPicked (user_id : Nat) (cat_key : String) (folder : Option (List FileEntry))
    (choiceIdx : Nat) (st : St) : FileEntry :=
  let choices := imgChoices st user_id cat_key (imgFiles folder)
  choices.getD (choiceIdx % choices.length) ⟨"", false, none⟩

/-- Embedding of `pick_image_non_repeating` (main.py lines 85-105).  Returns the payload
(filename and bytes, or `none`) together with the persisted root: the
marker is written and saved before `read_bytes`, so a read failure (bytes
`none`) still leaves the updated marker in the root. -/
def pick_image_non_repeating (user_id : Nat) (cat_key : String)
    (folder : Option (List FileEntry)) (choiceIdx : Nat) (st0 : St) :
    Option (String × List Nat) × St :=
  let imgs := imgFiles folder
  if imgs = [] then (none, st0)
  else
    let img := imgPicked user_id cat_key folder choiceIdx st0
    let p := setdefault st0 (toString user_id) ([] : UMap)
    let st2 := setKey p.2 (toString user_id)
      (setKey p.1 (cat_key ++ "__last_image") (JVal.str img.name))
    match img.bytes with
    | some bs => (some (img.name, bs), st2)
    | none => (none, st2)

/-! ### Association-list lemmas (Python dict semantics) -/

theorem lookupKey_setKey_self {α : Type} (m : List (String × α)) (k : String) (v : α) :
    lookupKey (setKey m k v) k = some v := by
  induction m with
  | nil => simp [setKey, lookupKey]
  | cons hd t ih =>
    by_cases hk : hd.1 = k
    · simp [setKey, lookupKey, hk]
    · simp [setKey, lookupKey, hk, ih]

theorem lookupKey_setKey_ne {α : Type} (m : List (String × α)) (k k' : String) (v : α)
    (h : k' ≠ k) : lookupKey (setKey m k v) k' = lookupKey m k' := by
  induction m with
  | nil => simp [setKey, lookupKey, h, Ne.symm h]
  | cons hd t ih =>
    obtain ⟨k0, v0⟩ := hd
    by_cases hk : k0 = k
    · subst hk
      simp [setKey, lookupKey, h, Ne.symm h]
    · simp [setKey, lookupKey, hk, ih]

theorem setKey_of_lookup_eq {α : Type} (m : List (String × α)) (k : String) (v : α)
    (h : lookupKey m k = some v) : setKey m k v = m := by
  induction m with
  | nil => simp [lookupKey] at h
  | cons hd t ih =>
    obtain ⟨k0, v0⟩ := hd
    by_cases hk : k0 = k
    · subst hk
      simp [lookupKey] at h
      simp [setKey, h]
    · simp [lookupKey, hk] at h
      simp [setKey, hk, ih h]

theorem setdefault_present {α : Type} (m : List (String × α)) (k : String) (d v : α)
    (h : lookupKey m k = some v) : setdefault m k d = (v, m) := by
  induction m with
  | nil => simp [lookupKey] at h
  | cons hd t ih =>
    obtain ⟨k0, v0⟩ := hd
    by_cases hk : k0 = k
    · subst hk
      simp [lookupKey] at h
      simp [setdefault, h]
    · simp [lookupKey, hk] at h
      simp [setdefault, hk, ih h]

theorem setdefault_absent {α : Type} (m : List (String × α)) (k : String) (d : α)
    (h : lookupKey m k = none) : setdefault m k d = (d, m ++ [(k, d)]) := by
  induction m with
  | nil => simp [setdefault]
  | cons hd t ih =>
    obtain ⟨k0, v0⟩ := hd
    by_cases hk : k0 = k
    · simp [lookupKey, hk] at h
    · simp [lookupKey, hk] at h
      simp [setdefault, hk, ih h]

theorem lookupKey_append_self {α : Type} (m : List (String × α)) (k : String) (d : α)
    (h : lookupKey m k = none) : lookupKey (m ++ [(k, d)]) k = some d := by
  induction m with
  | nil => simp [lookupKey]
  | cons hd t ih =>
    obtain ⟨k0, v0⟩ := hd
    by_cases hk : k0 = k
    · simp [lookupKey, hk] at h
    · simp [lookupKey, hk] at h
      simp [lookupKey, hk, ih h]

theorem lookupKey_append_ne {α : Type} (m : List (String × α)) (k k' : String) (d : α)
    (h : k' ≠ k) : lookupKey (m ++ [(k, d)]) k' = lookupKey m k' := by
  induction m with
  | nil => simp [lookupKey, h, Ne.symm h]
  | cons hd t ih =>
    obtain ⟨k0, v0⟩ := hd
    by_cases hk : k0 = k'
    · simp [lookupKey, hk]
    · simp [lookupKey, hk, ih]

theorem setKey_append_self {α : Type} (m : List (String × α)) (k : String) (d v : α)
    (h : lookupKey m k = none) : setKey (m ++ [(k, d)]) k v = m ++ [(k, v)] := by
  induction m with
  | nil => simp [setKey]
  | cons hd t ih =>
    obtain ⟨k0, v0⟩ := hd
    by_cases hk : k0 = k
    · simp [lookupKey, hk] at h
    · simp [lookupKey, hk] at h
      simp [setKey, hk, ih h]

theorem mem_setKey {α : Type} (m : List (String × α)) (k : String) (v : α)
    (p : String × α) (h : p ∈ setKey m k v) : p = (k, v) ∨ p ∈ m := by
  induction m with
  | nil => simpa [setKey] using h
  | cons hd t ih =>
    obtain ⟨k0, v0⟩ := hd
    by_cases hk : k0 = k
    · subst hk
      simp [setKey] at h
      rcases h with h | h
      · exact Or.inl h
      · exact Or.inr (List.mem_cons_of_mem _ h)
    · simp [setKey, hk] at h
      rcases h with h | h
      · exact Or.inr (by simp [h])
      · rcases ih h with h' | h'
        · exact Or.inl h'
        · exact Or.inr (List.mem_cons_of_mem _ h')

theorem lookupKey_mem {α : Type} (m : List (String × α)) (k : String) (v : α)
    (h : lookupKey m k = some v) : (k, v) ∈ m := by
  induction m with
  | nil => simp [lookupKey] at h
  | cons hd t ih =>
    obtain ⟨k0, v0⟩ := hd
    by_cases hk : k0 = k
    · subst hk
      simp [lookupKey] at h
      simp [h]
    · simp [lookupKey, hk] at h
      exact List.mem_cons_of_mem _ (ih h)

/-! ### Small list lemmas -/

theorem getD_mem {α : Type} (l : List α) (n : Nat) (d : α) (h : n < l.length) :
    l.getD n d ∈ l := by
  rw [List.getD_eq_getElem l d h]
  exact List.getElem_mem h

theorem getD_mod_mem {α : Type} (l : List α) (i : Nat) (d : α) (h : l ≠ []) :
    l.getD (i % l.length) d ∈ l :=
  getD_mem _ _ _ (Nat.mod_lt _ (List.length_pos.mpr h))

theorem nodup_append_singleton {α : Type} (l : List α) (a : α) (ha : a ∉ l) (hl : l.Nodup) :
    (l ++ [a]).Nodup := by
  rw [List.nodup_append]
  refine ⟨hl, List.nodup_singleton a, ?_⟩
  intro x hx hx'
  simp at hx'
  exact ha (hx' ▸ hx)

/-! ### Facts about `truncAdd` -/

theorem truncAdd_eq_drop (b : List String) (k : String) :
    truncAdd b k = (b ++ [k]).drop (b.length + 1 - RECENT_N) := by
  unfold truncAdd
  simp only [List.length_append, List.length_singleton]
  by_cases h : RECENT_N < b.length + 1
  · rw [if_pos h]
  · rw [if_neg h]
    have : b.length + 1 - RECENT_N = 0 := by omega
    rw [this, List.drop_zero]

theorem truncAdd_length (b : List String) (k : String) :
    (truncAdd b k).length = min (b.length + 1) RECENT_N := by
  rw [truncAdd_eq_drop, List.length_drop]
  simp only [List.length_append, List.length_singleton]
  have : (0 : Nat) < RECENT_N := by simp [RECENT_N]
  omega

theorem truncAdd_length_le (b : List String) (k : String) :
    (truncAdd b k).length ≤ RECENT_N := by
  rw [truncAdd_length]
  omega

theorem truncAdd_getLast? (b : List String) (k : String) :
    (truncAdd b k).getLast? = some k := by
  rw [truncAdd_eq_drop]
  have hR : RECENT_N = 20 := rfl
  rw [List.drop_append_of_le_length (by omega : b.length + 1 - RECENT_N ≤ b.length)]
  exact List.getLast?_concat _

/-! ### Facts about `eligibleOf` -/

theorem eligibleOf_nil_seen (items : List String) : eligibleOf items [] = items := by
  unfold eligibleOf
  rw [List.filter_eq_self]
  intro a _
  simp [List.contains]

theorem mem_eligibleOf (x : String) (items seen : List String)
    (h : x ∈ eligibleOf items seen) : x ∈ items ∧ _hash_text x ∉ seen := by
  unfold eligibleOf at h
  have h' := List.mem_filter.mp h
  simpa using h'

theorem eligibleOf_subset (items seen : List String) : eligibleOf items seen ⊆ items :=
  List.filter_subset' items

theorem eligibleOf_empty_length_le (items b : List String)
    (hnd : (items.map _hash_text).Nodup) (h : eligibleOf items b = []) :
    items.length ≤ b.length := by
  have hsub : items.map _hash_text ⊆ b := by
    intro y hy
    obtain ⟨x, hx, rfl⟩ := List.mem_map.mp hy
    have hall := List.filter_eq_nil_iff.mp h x hx
    simpa using hall
  calc items.length = (items.map _hash_text).length := (List.length_map items _).symm
    _ ≤ b.length := (hnd.subperm hsub).length_le

theorem truncAdd_nil (k : String) : truncAdd [] k = [k] := rfl

/-! ### Behaviour of the state-store operations -/

theorem user_bucket_spec (st : St) (user_id : Nat) (cat_key : String) (b : List String)
    (hb : bview st user_id cat_key = some b) :
    (_user_bucket st user_id cat_key).1 = JVal.arr b ∧
    entryAt (_user_bucket st user_id cat_key).2 user_id cat_key = some (JVal.arr b) ∧
    (∀ uk ck, bviewKey (_user_bucket st user_id cat_key).2 uk ck = bviewKey st uk ck) := by
  cases hu : lookupKey st (toString user_id) with
  | none =>
    have hb0 : b = [] := by
      simp [bview, bviewKey, entryAtKey, hu] at hb
      exact hb
    subst hb0
    have h1 : setdefault st (toString user_id) ([] : UMap) =
        ([], st ++ [(toString user_id, [])]) := setdefault_absent _ _ _ hu
    have h2 : setKey (st ++ [(toString user_id, ([] : UMap))]) (toString user_id)
        [(cat_key, JVal.arr [])] = st ++ [(toString user_id, [(cat_key, JVal.arr [])])] :=
      setKey_append_self _ _ _ _ hu
    simp only [_user_bucket, h1, setdefault, h2]
    refine ⟨trivial, ?_, ?_⟩
    · simp [entryAt, entryAtKey, lookupKey_append_self _ _ _ hu, lookupKey]
    · intro uk ck
      by_cases huk : uk = toString user_id
      · subst huk
        simp only [bviewKey, entryAtKey, lookupKey_append_self _ _ _ hu, hu]
        by_cases hck : cat_key = ck <;> simp [lookupKey, hck]
      · simp [bviewKey, entryAtKey, lookupKey_append_ne _ _ _ _ huk]
  | some u =>
    have h1 : setdefault st (toString user_id) ([] : UMap) = (u, st) :=
      setdefault_present _ _ _ _ hu
    cases hc : lookupKey u cat_key with
    | none =>
      have hb0 : b = [] := by
        simp [bview, bviewKey, entryAtKey, hu, hc] at hb
        exact hb
      subst hb0
      have h2 : setdefault u cat_key (JVal.arr []) =
          (JVal.arr [], u ++ [(cat_key, JVal.arr [])]) := setdefault_absent _ _ _ hc
      simp only [_user_bucket, h1, h2]
      refine ⟨trivial, ?_, ?_⟩
      · simp [entryAt, entryAtKey, lookupKey_setKey_self, lookupKey_append_self _ _ _ hc]
      · intro uk ck
        by_cases huk : uk = toString user_id
        · subst huk
          simp only [bviewKey, entryAtKey, lookupKey_setKey_self, hu]
          by_cases hck : ck = cat_key
          · subst hck
            simp [lookupKey_append_self _ _ _ hc, hc]
          · simp [lookupKey_append_ne _ _ _ _ hck]
        · simp [bviewKey, entryAtKey, lookupKey_setKey_ne _ _ _ _ huk]
    | some v =>
      cases v with
      | str s => simp [bview, bviewKey, entryAtKey, hu, hc] at hb
      | arr l =>
        have hb0 : b = l := by
          simp [bview, bviewKey, entryAtKey, hu, hc] at hb
          exact hb.symm
        subst hb0
        have h2 : setdefault u cat_key (JVal.arr []) = (JVal.arr b, u) :=
          setdefault_present _ _ _ _ hc
        have h3 : setKey st (toString user_id) u = st := setKey_of_lookup_eq _ _ _ hu
        simp only [_user_bucket, h1, h2, h3]
        exact ⟨trivial, by simp [entryAt, entryAtKey, hu, hc], fun uk ck => trivial⟩

theorem user_bucket_noop (st : St) (user_id : Nat) (cat_key : String) (v : JVal)
    (he : entryAt st user_id cat_key = some v) :
    (_user_bucket st user_id cat_key).2 = st := by
  unfold entryAt entryAtKey at he
  cases hu : lookupKey st (toString user_id) with
  | none => simp [hu] at he
  | some u =>
    rw [hu] at he
    have h1 : setdefault st (toString user_id) ([] : UMap) = (u, st) :=
      setdefault_present _ _ _ _ hu
    have h2 : setdefault u cat_key (JVal.arr []) = (v, u) :=
      setdefault_present _ _ _ _ he
    simp only [_user_bucket, h1, h2]
    exact setKey_of_lookup_eq _ _ _ hu

theorem remember_spec (st : St) (user_id : Nat) (cat_key : String) (k : String)
    (b : List String) (hb : bview st user_id cat_key = some b) :
    ∃ st', _remember st user_id cat_key k = some st' ∧
      bview st' user_id cat_key = some (truncAdd b k) ∧
      (∀ uk ck, uk ≠ toString user_id ∨ ck ≠ cat_key →
        entryAtKey st' uk ck = entryAtKey st uk ck) ∧
      (wf_bounded st → wf_bounded st') := by
  cases hu : lookupKey st (toString user_id) with
  | none =>
    have hb0 : b = [] := by
      simp [bview, bviewKey, entryAtKey, hu] at hb
      exact hb
    subst hb0
    have h1 : setdefault st (toString user_id) ([] : UMap) =
        ([], st ++ [(toString user_id, [])]) := setdefault_absent _ _ _ hu
    have e1 : _remember st user_id cat_key k =
        some (setKey (st ++ [(toString user_id, ([] : UMap))]) (toString user_id)
          (setKey [(cat_key, JVal.arr [])] cat_key (JVal.arr (truncAdd [] k)))) := by
      simp only [_remember, h1]
      rfl
    have e2 : setKey [(cat_key, JVal.arr [])] cat_key (JVal.arr (truncAdd [] k)) =
        [(cat_key, JVal.arr (truncAdd [] k))] := by
      simp [setKey]
    have e3 : setKey (st ++ [(toString user_id, ([] : UMap))]) (toString user_id)
        [(cat_key, JVal.arr (truncAdd [] k))] =
        st ++ [(toString user_id, [(cat_key, JVal.arr (truncAdd [] k))])] :=
      setKey_append_self _ _ _ _ hu
    refine ⟨st ++ [(toString user_id, [(cat_key, JVal.arr (truncAdd [] k))])],
      by rw [e1, e2, e3], ?_, ?_, ?_⟩
    · simp [bview, bviewKey, entryAtKey, lookupKey_append_self _ _ _ hu, lookupKey]
    · intro uk ck hne
      by_cases huk : uk = toString user_id
      · subst huk
        rcases hne with hne | hne
        · exact absurd rfl hne
        · simp [entryAtKey, lookupKey_append_self _ _ _ hu, hu, lookupKey, Ne.symm hne]
      · simp [entryAtKey, lookupKey_append_ne _ _ _ _ huk]
    · intro hwf uk um hmem ck l hl
      rcases List.mem_append.mp hmem with hmem | hmem
      · exact hwf _ _ hmem _ _ hl
      · simp at hmem
        rw [hmem.2] at hl
        simp at hl
        rw [hl.2]
        exact truncAdd_length_le _ _
  | some u =>
    have h1 : setdefault st (toString user_id) ([] : UMap) = (u, st) :=
      setdefault_present _ _ _ _ hu
    have humem : (toString user_id, u) ∈ st := lookupKey_mem _ _ _ hu
    cases hc : lookupKey u cat_key with
    | none =>
      have hb0 : b = [] := by
        simp [bview, bviewKey, entryAtKey, hu, hc] at hb
        exact hb
      subst hb0
      have h2 : setdefault u cat_key (JVal.arr []) =
          (JVal.arr [], u ++ [(cat_key, JVal.arr [])]) := setdefault_absent _ _ _ hc
      have e1 : _remember st user_id cat_key k =
          some (setKey st (toString user_id)
            (setKey (u ++ [(cat_key, JVal.arr [])]) cat_key (JVal.arr (truncAdd [] k)))) := by
        simp only [_remember, h1, h2]
        rfl
      have e2 : setKey (u ++ [(cat_key, JVal.arr [])]) cat_key (JVal.arr (truncAdd [] k)) =
          u ++ [(cat_key, JVal.arr (truncAdd [] k))] := setKey_append_self _ _ _ _ hc
      refine ⟨setKey st (toString user_id) (u ++ [(cat_key, JVal.arr (truncAdd [] k))]),
        by rw [e1, e2], ?_, ?_, ?_⟩
      · simp [bview, bviewKey, entryAtKey, lookupKey_setKey_self,
          lookupKey_append_self _ _ _ hc]
      · intro uk ck hne
        by_cases huk : uk = toString user_id
        · subst huk
          rcases hne with hne | hne
          · exact absurd rfl hne
          · simp [entryAtKey, lookupKey_setKey_self, hu, lookupKey_append_ne _ _ _ _ hne]
        · simp [entryAtKey, lookupKey_setKey_ne _ _ _ _ huk]
      · intro hwf uk um hmem ck l hl
        rcases mem_setKey _ _ _ _ hmem with hmem | hmem
        · simp at hmem
          rw [hmem.2] at hl
          rcases List.mem_append.mp hl with hl | hl
          · exact hwf _ _ humem _ _ hl
          · simp at hl
            rw [hl.2]
            exact truncAdd_length_le _ _
        · exact hwf _ _ hmem _ _ hl
    | some v =>
      cases v with
      | str s => simp [bview, bviewKey, entryAtKey, hu, hc] at hb
      | arr l0 =>
        have hb0 : b = l0 := by
          simp [bview, bviewKey, entryAtKey, hu, hc] at hb
          exact hb.symm
        subst hb0
        have h2 : setdefault u cat_key (JVal.arr []) = (JVal.arr b, u) :=
          setdefault_present _ _ _ _ hc
        have e1 : _remember st user_id cat_key k =
            some (setKey st (toString user_id)
              (setKey u cat_key (JVal.arr (truncAdd b k)))) := by
          simp only [_remember, h1, h2]
          rfl
        refine ⟨setKey st (toString user_id) (setKey u cat_key (JVal.arr (truncAdd b k))),
          e1, ?_, ?_, ?_⟩
        · simp [bview, bviewKey, entryAtKey, lookupKey_setKey_self]
        · intro uk ck hne
          by_cases huk : uk = toString user_id
          · subst huk
            rcases hne with hne | hne
            · exact absurd rfl hne
            · simp [entryAtKey, lookupKey_setKey_self, hu, lookupKey_setKey_ne _ _ _ _ hne]
          · simp [entryAtKey, lookupKey_setKey_ne _ _ _ _ huk]
        · intro hwf uk um hmem ck l hl
          rcases mem_setKey _ _ _ _ hmem with hmem | hmem
          · simp at hmem
            rw [hmem.2] at hl
            rcases mem_setKey _ _ _ _ hl with hl | hl
            · simp at hl
              rw [hl.2]
              exact truncAdd_length_le _ _
            · exact hwf _ _ humem _ _ hl
          · exact hwf _ _ hmem _ _ hl

/-- Full characterisation of one `pick_non_repeating` call from a state whose
bucket view is `b`, for non-empty `items`. -/
theorem pick_spec (user_id : Nat) (cat_key : String) (items : List String) (i : Nat)
    (st : St) (b : List String) (hb : bview st user_id cat_key = some b)
    (hne : items ≠ []) :
    ∃ c st',
      pick_non_repeating user_id cat_key items i st = some (c, st') ∧ c ∈ items ∧
      ((eligibleOf items b ≠ [] ∧
          c = (eligibleOf items b).getD (i % (eligibleOf items b).length) "" ∧
          bview st' user_id cat_key = some (truncAdd b (_hash_text c))) ∨
        (eligibleOf items b = [] ∧ c = items.getD (i % items.length) "" ∧
          bview st' user_id cat_key = some [_hash_text c])) := by
  obtain ⟨hv1, hv2, hv3⟩ := user_bucket_spec st user_id cat_key b hb
  have hbM : bview (_user_bucket st user_id cat_key).2 user_id cat_key = some b :=
    (hv3 _ _).trans hb
  by_cases hel : eligibleOf items b = []
  · cases hu2 : lookupKey (_user_bucket st user_id cat_key).2 (toString user_id) with
    | none => simp [entryAt, entryAtKey, hu2] at hv2
    | some u2 =>
      have hsd : setdefault (_user_bucket st user_id cat_key).2 (toString user_id)
          ([] : UMap) = (u2, (_user_bucket st user_id cat_key).2) :=
        setdefault_present _ _ _ _ hu2
      have hbC : bview (setKey (_user_bucket st user_id cat_key).2 (toString user_id)
          (setKey u2 cat_key (JVal.arr []))) user_id cat_key = some [] := by
        simp [bview, bviewKey, entryAtKey, lookupKey_setKey_self]
      obtain ⟨st', hrem, hview, hframe, hwf⟩ :=
        remember_spec _ user_id cat_key (_hash_text (items.getD (i % items.length) "")) [] hbC
      refine ⟨items.getD (i % items.length) "", st', ?_, getD_mod_mem _ i "" hne,
        Or.inr ⟨hel, rfl, by rw [hview, truncAdd_nil]⟩⟩
      simp only [pick_non_repeating, if_neg hne, hv1, jvalElems, if_pos hel, hsd]
      rw [hrem]
      rfl
  · obtain ⟨st', hrem, hview, hframe, hwf⟩ :=
      remember_spec (_user_bucket st user_id cat_key).2 user_id cat_key
        (_hash_text ((eligibleOf items b).getD (i % (eligibleOf items b).length) "")) b hbM
    refine ⟨(eligibleOf items b).getD (i % (eligibleOf items b).length) "", st', ?_,
      eligibleOf_subset items b (getD_mod_mem _ i "" hel), Or.inl ⟨hel, rfl, hview⟩⟩
    simp only [pick_non_repeating, if_neg hne, hv1, jvalElems, if_neg hel]
    rw [hrem]
    rfl

/-! ### Sequences of picks -/

/-- Every successful run of consecutive picks returns one item per call,
each drawn from the candidate list. -/
theorem runPicks_mem (user_id : Nat) (cat_key : String) (items : List String) :
    ∀ (os : List Nat) (st : St) (b : List String),
      bview st user_id cat_key = some b → items ≠ [] →
      ∃ cs st', runPicks user_id cat_key items os st = some (cs, st') ∧
        cs.length = os.length ∧ ∀ c ∈ cs, c ∈ items := by
  intro os
  induction os with
  | nil =>
    intro st b hb hne
    exact ⟨[], st, rfl, rfl, by simp⟩
  | cons i os ih =>
    intro st b hb hne
    obtain ⟨c, st1, hpick, hmem, hcase⟩ := pick_spec user_id cat_key items i st b hb hne
    have hb1 : ∃ b1, bview st1 user_id cat_key = some b1 := by
      rcases hcase with ⟨_, _, hv⟩ | ⟨_, _, hv⟩
      · exact ⟨_, hv⟩
      · exact ⟨_, hv⟩
    obtain ⟨b1, hb1⟩ := hb1
    obtain ⟨cs, st2, hrun, hlen, hall⟩ := ih st1 b1 hb1 hne
    refine ⟨c :: cs, st2, ?_, by simp [hlen], ?_⟩
    · simp only [runPicks, hpick, hrun]
    · intro x hx
      rcases List.mem_cons.mp hx with rfl | hx
      · exact hmem
      · exact hall x hx

/-- Induction core for the anti-repetition window: `prev` is the (nodup)
fingerprint trace of the picks already made in the window, and a suffix of
the current bucket. -/
theorem run_picks_nodup_aux (user_id : Nat) (cat_key : String) (items : List String)
    (hnd : (items.map _hash_text).Nodup) (hlen : RECENT_N < items.length) :
    ∀ (os : List Nat) (prev b : List String) (st : St),
      bview st user_id cat_key = some b →
      (∃ b0, b = b0 ++ prev) →
      (prev ≠ [] → b.length ≤ RECENT_N) →
      prev.Nodup →
      prev.length + os.length ≤ RECENT_N →
      ∃ cs st', runPicks user_id cat_key items os st = some (cs, st') ∧
        (prev ++ cs.map _hash_text).Nodup := by
  intro os
  induction os with
  | nil =>
    intro prev b st hb _ _ hprevnd _
    exact ⟨[], st, rfl, by simpa using hprevnd⟩
  | cons i os ih =>
    rintro prev b st hb ⟨b0, hb0⟩ hble hprevnd hcount
    have hne : items ≠ [] := by
      intro h
      rw [h] at hlen
      simp [RECENT_N] at hlen
    have hcount' : prev.length + (os.length + 1) ≤ RECENT_N := by simpa using hcount
    obtain ⟨c, st1, hpick, hcmem, hcase⟩ := pick_spec user_id cat_key items i st b hb hne
    rcases hcase with ⟨helig, hcdef, hview⟩ | ⟨helig, hcdef, hview⟩
    · subst hb0
      have hcnotb : _hash_text c ∉ (b0 ++ prev) := by
        have hcmem' : c ∈ eligibleOf items (b0 ++ prev) := hcdef ▸ getD_mod_mem _ i "" helig
        exact (mem_eligibleOf c items (b0 ++ prev) hcmem').2
      have hcnotprev : _hash_text c ∉ prev := fun hmem =>
        hcnotb (List.mem_append_right b0 hmem)
      have hd_le : (b0 ++ prev).length + 1 - RECENT_N ≤ b0.length := by
        simp only [List.length_append]
        omega
      have hsuffix : ∃ b0',
          truncAdd (b0 ++ prev) (_hash_text c) = b0' ++ (prev ++ [_hash_text c]) := by
        refine ⟨b0.drop ((b0 ++ prev).length + 1 - RECENT_N), ?_⟩
        rw [truncAdd_eq_drop, List.append_assoc b0 prev [_hash_text c],
          List.drop_append_of_le_length hd_le]
      have hnd1 : (prev ++ [_hash_text c]).Nodup :=
        nodup_append_singleton _ _ hcnotprev hprevnd
      have hcount1 : (prev ++ [_hash_text c]).length + os.length ≤ RECENT_N := by
        simp only [List.length_append, List.length_singleton]
        omega
      obtain ⟨cs, st2, hrun, hndrest⟩ := ih (prev ++ [_hash_text c])
        (truncAdd (b0 ++ prev) (_hash_text c)) st1 hview hsuffix
        (fun _ => truncAdd_length_le _ _) hnd1 hcount1
      refine ⟨c :: cs, st2, ?_, ?_⟩
      · simp only [runPicks, hpick, hrun]
      · simpa [List.append_assoc] using hndrest
    · have hprev_nil : prev = [] := by
        by_contra hp
        have hble' : b.length ≤ RECENT_N := hble hp
        have := eligibleOf_empty_length_le items b hnd helig
        omega
      subst hprev_nil
      have hcount1 : ([_hash_text c]).length + os.length ≤ RECENT_N := by
        simp only [List.length_singleton]
        omega
      obtain ⟨cs, st2, hrun, hndrest⟩ := ih [_hash_text c] [_hash_text c] st1 hview
        ⟨[], by simp⟩ (fun _ => by simp [RECENT_N]) (List.nodup_singleton _) hcount1
      refine ⟨c :: cs, st2, ?_, ?_⟩
      · simp only [runPicks, hpick, hrun]
      · simpa using hndrest

/-- C1 (amended): for candidates with pairwise-distinct fingerprints and
`|C| > RECENT_N`, any `RECENT_N` consecutive picks for one (user, category)
succeed and show no repeated fingerprint, from any starting bucket. -/
theorem pick_window_nodup (user_id : Nat) (cat_key : String) (items : List String)
    (os : List Nat) (st : St) (b : List String)
    (hnd : (items.map _hash_text).Nodup) (hlen : RECENT_N < items.length)
    (hb : bview st user_id cat_key = some b) (hos : os.length = RECENT_N) :
    ∃ cs st', runPicks user_id cat_key items os st = some (cs, st') ∧
      (cs.map _hash_text).Nodup := by
  obtain ⟨cs, st', hrun, hn⟩ := run_picks_nodup_aux user_id cat_key items hnd hlen os [] b st
    hb ⟨b, by simp⟩ (fun h => absurd rfl h) List.nodup_nil (by simp [hos])
  exact ⟨cs, st', hrun, by simpa using hn⟩

/-- C1 counterexample: 21 copies of `"a"` form a non-empty candidate list
with `|C| = 21 > RECENT_N`, yet the 20 consecutive picks from the empty
state all return `"a"`, so fingerprints repeat throughout the window. -/
theorem pick_window_nodup_cex :
    RECENT_N < (List.replicate 21 "a").length ∧
    (List.replicate 20 (0 : Nat)).length = RECENT_N ∧
    runPicksResults 1 "x" (List.replicate 21 "a") (List.replicate 20 0) [] =
      some (List.replicate 20 "a") ∧
    ¬ ((List.replicate 20 "a").map _hash_text).Nodup := by
  have hne : (List.replicate 21 "a") ≠ ([] : List String) := by simp
  obtain ⟨cs, st', hrun, hlen, hmem⟩ :=
    runPicks_mem 1 "x" (List.replicate 21 "a") (List.replicate 20 0) [] [] rfl hne
  have hlen20 : cs.length = 20 := by simpa using hlen
  have hcs : cs = List.replicate 20 "a" := by
    have h := List.eq_replicate_length.mpr
      (fun c hc => List.eq_of_mem_replicate (hmem c hc) : ∀ c ∈ cs, c = "a")
    rw [hlen20] at h
    exact h
  refine ⟨by simp [RECENT_N], by simp [RECENT_N], ?_, ?_⟩
  · rw [runPicksResults, hrun]
    simp [hcs]
  · rw [List.map_replicate]
    simp [List.nodup_replicate]

/-- Concrete candidate list with 21 pairwise-distinct fingerprints. -/
def witnessItems : List String :=
  ["a", "b", "c", "d", "e", "f", "g", "h", "i", "j", "k",
   "l", "m", "n", "o", "p", "q", "r", "s", "t", "u"]

set_option maxHeartbeats 3200000 in
theorem pick_window_nodup_witness :
    (witnessItems.map _hash_text).Nodup ∧ RECENT_N < witnessItems.length ∧
    bview [] 1 "x" = some [] ∧ (List.replicate 20 (0 : Nat)).length = RECENT_N ∧
    ∃ cs st', runPicks 1 "x" witnessItems (List.replicate 20 0) [] = some (cs, st') ∧
      (cs.map _hash_text).Nodup := by
  have h1 : witnessItems.map _hash_text =
      ["86f7e437faa5a7fc", "e9d71f5ee7c92d6d", "84a516841ba77a5b", "3c363836cf4e1666",
       "58e6b3a414a1e090", "4a0a19218e082a34", "54fd1711209fb1c0", "27d5482eebd075de",
       "042dc4512fa3d391", "5c2dd944dde9e088", "13fbd79c3d390e5d", "07c342be6e560e7f",
       "6b0d31c0d5632230", "d1854cae891ec7b2", "7a81af3e591ac713", "516b9783fca517ee",
       "22ea1c649c82946a", "4dc7c9ec434ed065", "a0f1490a20d0211c", "8efd86fb78a56a51",
       "51e69892ab49df85"] := by decide
  have hnd : (witnessItems.map _hash_text).Nodup := by
    rw [h1]
    decide
  exact ⟨hnd, by decide, rfl, by decide,
    pick_window_nodup 1 "x" witnessItems (List.replicate 20 0) [] []
      hnd (by decide) rfl (by decide)⟩

/-- C2: when every candidate fingerprint is already in the bucket (eligible
set empty), the bucket for (user, categoryKey) is cleared and the pick is
drawn from the full original candidate list; after the call the bucket
holds exactly the new pick's fingerprint. -/
theorem pick_exhaustion_full_draw (user_id : Nat) (cat_key : String) (items : List String)
    (i : Nat) (st : St) (b : List String) (hb : bview st user_id cat_key = some b)
    (hne : items ≠ []) (hex : eligibleOf items b = []) :
    ∃ st', pick_non_repeating user_id cat_key items i st =
        some (items.getD (i % items.length) "", st') ∧
      items.getD (i % items.length) "" ∈ items ∧
      bview st' user_id cat_key = some [_hash_text (items.getD (i % items.length) "")] := by
  obtain ⟨c, st', hpick, hmem, hcase⟩ := pick_spec user_id cat_key items i st b hb hne
  rcases hcase with ⟨hne', _, _⟩ | ⟨_, hc, hview⟩
  · exact absurd hex hne'
  · subst hc
    exact ⟨st', hpick, hmem, hview⟩

theorem pick_exhaustion_full_draw_witness :
    (["a"] : List String) ≠ [] ∧
    bview [("1", [("x", JVal.arr [_hash_text "a"])])] 1 "x" = some [_hash_text "a"] ∧
    eligibleOf ["a"] [_hash_text "a"] = [] ∧
    ∃ st', pick_non_repeating 1 "x" ["a"] 0 [("1", [("x", JVal.arr [_hash_text "a"])])] =
        some ((["a"] : List String).getD (0 % (["a"] : List String).length) "", st') ∧
      (["a"] : List String).getD (0 % (["a"] : List String).length) "" ∈ (["a"] : List String) ∧
      bview st' 1 "x" =
        some [_hash_text ((["a"] : List String).getD (0 % (["a"] : List String).length) "")] :=
  ⟨by decide, rfl, by decide,
    pick_exhaustion_full_draw 1 "x" ["a"] 0 [("1", [("x", JVal.arr [_hash_text "a"])])]
      [_hash_text "a"] rfl (by decide) (by decide)⟩

/-- The concrete pre-state for the C3 counterexample: the (1, "x") bucket
holds `RECENT_N` copies of the fingerprint of `"a"`. -/
def cexState3 : St := [("1", [("x", JVal.arr (List.replicate 20 (_hash_text "a")))])]

/-- C3 counterexample: with candidates `["a"]` and a full bucket, the
exhaustion-triggering pick clears the bucket and records `"a"`, but the
pick immediately following it has eligible set `[]`, not the full
candidate set `["a"]`. -/
theorem pick_reset_next_eligible_cex :
    bview cexState3 1 "x" = some (List.replicate 20 (_hash_text "a")) ∧
    (List.replicate 20 (_hash_text "a")).length = RECENT_N ∧
    eligibleOf ["a"] (List.replicate 20 (_hash_text "a")) = [] ∧
    (∃ st', pick_non_repeating 1 "x" ["a"] 0 cexState3 = some ("a", st') ∧
      bview st' 1 "x" = some [_hash_text "a"]) ∧
    eligibleOf ["a"] [_hash_text "a"] ≠ ["a"] := by
  have hex : eligibleOf ["a"] (List.replicate 20 (_hash_text "a")) = [] := by decide
  have hex2 : eligibleOf ["a"] [_hash_text "a"] = [] := by decide
  refine ⟨rfl, by simp [RECENT_N], hex, ?_, ?_⟩
  · obtain ⟨c, st', hpick, hmem, hcase⟩ :=
      pick_spec 1 "x" ["a"] 0 cexState3 (List.replicate 20 (_hash_text "a")) rfl (by simp)
    rcases hcase with ⟨hne', _, _⟩ | ⟨_, hc, hview⟩
    · exact absurd hex hne'
    · have hc' : c = "a" := by simpa using hc
      subst hc'
      exact ⟨st', hpick, hview⟩
  · rw [hex2]
    simp

/-- C3 (amended): after the bucket reaches `RECENT_N` entries and a further
pick exhausts the eligible candidates, the bucket is cleared and holds only
the triggering pick's fingerprint; the immediately following pick's
eligible set is the full candidate list minus the candidates sharing the
triggering pick's fingerprint. -/
theorem pick_reset_law (user_id : Nat) (cat_key : String) (items : List String)
    (i : Nat) (st : St) (b : List String) (hb : bview st user_id cat_key = some b)
    (hfull : b.length = RECENT_N) (hne : items ≠ []) (hex : eligibleOf items b = []) :
    ∃ c st', pick_non_repeating user_id cat_key items i st = some (c, st') ∧ c ∈ items ∧
      bview st' user_id cat_key = some [_hash_text c] ∧
      eligibleOf items [_hash_text c] =
        items.filter (fun x => !(_hash_text x == _hash_text c)) := by
  obtain ⟨c, st', hpick, hmem, hcase⟩ := pick_spec user_id cat_key items i st b hb hne
  rcases hcase with ⟨hne', _, _⟩ | ⟨_, hc, hview⟩
  · exact absurd hex hne'
  · refine ⟨c, st', hpick, hmem, hview, ?_⟩
    unfold eligibleOf
    apply List.filter_congr
    intro x hx
    simp [List.contains]
    by_cases h : _hash_text x = _hash_text c <;> simp [h]

set_option maxHeartbeats 3200000 in
theorem pick_reset_law_witness :
    bview cexState3 1 "x" = some (List.replicate 20 (_hash_text "a")) ∧
    (List.replicate 20 (_hash_text "a")).length = RECENT_N ∧
    (["a"] : List String) ≠ [] ∧
    eligibleOf ["a"] (List.replicate 20 (_hash_text "a")) = [] ∧
    ∃ c st', pick_non_repeating 1 "x" ["a"] 0 cexState3 = some (c, st') ∧ c ∈ (["a"] : List String) ∧
      bview st' 1 "x" = some [_hash_text c] ∧
      eligibleOf ["a"] [_hash_text c] =
        (["a"] : List String).filter (fun x => !(_hash_text x == _hash_text c)) :=
  ⟨rfl, by simp [RECENT_N], by decide, by decide,
    pick_reset_law 1 "x" ["a"] 0 cexState3 (List.replicate 20 (_hash_text "a"))
      rfl (by simp [RECENT_N]) (by decide) (by decide)⟩

/-- C4: `_remember` appends the fingerprint at the end and drops entries
from the front when the result exceeds `RECENT_N`, leaving exactly
`RECENT_N`; the resulting bucket never exceeds `RECENT_N`, and the bound on
all buckets is preserved. -/
theorem remember_bound_spec (st : St) (user_id : Nat) (cat_key k : String)
    (b : List String) (hb : bview st user_id cat_key = some b) :
    ∃ st', _remember st user_id cat_key k = some st' ∧
      bview st' user_id cat_key = some ((b ++ [k]).drop (b.length + 1 - RECENT_N)) ∧
      ((b ++ [k]).drop (b.length + 1 - RECENT_N)).length = min (b.length + 1) RECENT_N ∧
      (RECENT_N < b.length + 1 →
        ((b ++ [k]).drop (b.length + 1 - RECENT_N)).length = RECENT_N) ∧
      ((b ++ [k]).drop (b.length + 1 - RECENT_N)).length ≤ RECENT_N ∧
      (wf_bounded st → wf_bounded st') := by
  obtain ⟨st', h1, h2, _, h4⟩ := remember_spec st user_id cat_key k b hb
  refine ⟨st', h1, ?_, ?_, ?_, ?_, h4⟩
  · rw [← truncAdd_eq_drop]
    exact h2
  · rw [← truncAdd_eq_drop, truncAdd_length]
  · intro h
    rw [← truncAdd_eq_drop, truncAdd_length]
    omega
  · rw [← truncAdd_eq_drop]
    exact truncAdd_length_le _ _

theorem remember_bound_spec_witness :
    bview [] 7 "cat" = some [] ∧
    (∃ st', _remember [] 7 "cat" "f" = some st' ∧
      bview st' 7 "cat" = some ((([] : List String) ++ ["f"]).drop (0 + 1 - RECENT_N)) ∧
      ((([] : List String) ++ ["f"]).drop (0 + 1 - RECENT_N)).length =
        min (0 + 1) RECENT_N ∧
      (RECENT_N < 0 + 1 →
        ((([] : List String) ++ ["f"]).drop (0 + 1 - RECENT_N)).length = RECENT_N) ∧
      ((([] : List String) ++ ["f"]).drop (0 + 1 - RECENT_N)).length ≤ RECENT_N ∧
      (wf_bounded [] → wf_bounded st')) :=
  ⟨rfl, remember_bound_spec [] 7 "cat" "f" [] rfl⟩

/-- C6: `_load_state` is total: a missing file and unparseable content both
yield the empty root without raising, and a pick right after a corrupt load
succeeds, returning a member of the full candidate list. -/
theorem load_state_recovery :
    _load_state StateFile.missing = [] ∧ _load_state StateFile.corrupt = [] ∧
    (∀ (user_id : Nat) (cat_key : String) (items : List String) (i : Nat),
      items ≠ [] →
      ∃ c st', pick_non_repeating user_id cat_key items i (_load_state StateFile.corrupt) =
          some (c, st') ∧ c ∈ items) := by
  refine ⟨rfl, rfl, fun user_id cat_key items i hne => ?_⟩
  obtain ⟨c, st', hpick, hmem, _⟩ := pick_spec user_id cat_key items i [] [] rfl hne
  exact ⟨c, st', hpick, hmem⟩

theorem load_state_recovery_witness :
    (["q"] : List String) ≠ [] ∧
    ∃ c st', pick_non_repeating 1 "x" ["q"] 0 (_load_state StateFile.corrupt) =
        some (c, st') ∧ c ∈ (["q"] : List String) :=
  ⟨by decide, load_state_recovery.2.2 1 "x" ["q"] 0 (by decide)⟩

/-- C7 counterexample: reading the bucket of a (user, category) absent from
the root inserts empty entries, so `_user_bucket` does mutate the state
root. -/
theorem user_bucket_mutates : (_user_bucket [] 0 "c").2 ≠ ([] : St) := by decide

/-- C7 (amended): `_user_bucket` returns the stored bucket (the empty
bucket when the user or category entry is absent); it may insert missing
entries holding an empty bucket — mutating the root — but every
(user, category) bucket view is unchanged, and the root is unchanged
whenever the entry already exists. -/
theorem user_bucket_read_spec (st : St) (user_id : Nat) (cat_key : String)
    (b : List String) (hb : bview st user_id cat_key = some b) :
    (_user_bucket st user_id cat_key).1 = JVal.arr b ∧
    (∀ uk ck, bviewKey (_user_bucket st user_id cat_key).2 uk ck = bviewKey st uk ck) ∧
    (∀ v, entryAt st user_id cat_key = some v → (_user_bucket st user_id cat_key).2 = st) := by
  obtain ⟨h1, _, h3⟩ := user_bucket_spec st user_id cat_key b hb
  exact ⟨h1, h3, fun v hv => user_bucket_noop st user_id cat_key v hv⟩

theorem user_bucket_read_spec_witness :
    bview [("5", [("c", JVal.arr ["aa"])])] 5 "c" = some ["aa"] ∧
    ((_user_bucket [("5", [("c", JVal.arr ["aa"])])] 5 "c").1 = JVal.arr ["aa"] ∧
      (∀ uk ck, bviewKey (_user_bucket [("5", [("c", JVal.arr ["aa"])])] 5 "c").2 uk ck =
        bviewKey [("5", [("c", JVal.arr ["aa"])])] uk ck) ∧
      (∀ v, entryAt [("5", [("c", JVal.arr ["aa"])])] 5 "c" = some v →
        (_user_bucket [("5", [("c", JVal.arr ["aa"])])] 5 "c").2 =
          [("5", [("c", JVal.arr ["aa"])])])) :=
  ⟨rfl, user_bucket_read_spec [("5", [("c", JVal.arr ["aa"])])] 5 "c" ["aa"] rfl⟩

/-- C10: calling `pick_non_repeating` with an empty candidate list does not
fail: the placeholder list `["(нет данных)"]` is substituted, the
placeholder string is returned, and its fingerprint is recorded at the end
of the bucket like any other pick. -/
theorem pick_empty_items_spec (user_id : Nat) (cat_key : String) (i : Nat) (st : St)
    (b : List String) (hb : bview st user_id cat_key = some b) :
    ∃ st' nb, pick_non_repeating user_id cat_key [] i st = some ("(нет данных)", st') ∧
      bview st' user_id cat_key = some nb ∧
      nb.getLast? = some (_hash_text "(нет данных)") := by
  have heq : pick_non_repeating user_id cat_key [] i st =
      pick_non_repeating user_id cat_key ["(нет данных)"] i st := by
    simp [pick_non_repeating]
  obtain ⟨c, st', hpick, hmem, hcase⟩ :=
    pick_spec user_id cat_key ["(нет данных)"] i st b hb (by simp)
  have hc : c = "(нет данных)" := by simpa using hmem
  subst hc
  rcases hcase with ⟨_, _, hview⟩ | ⟨_, _, hview⟩
  · exact ⟨st', truncAdd b _, heq ▸ hpick, hview, truncAdd_getLast? _ _⟩
  · exact ⟨st', [_hash_text _], heq ▸ hpick, hview, by simp⟩

theorem pick_empty_items_spec_witness :
    bview [] 3 "songs" = some [] ∧
    ∃ st' nb, pick_non_repeating 3 "songs" [] 0 [] = some ("(нет данных)", st') ∧
      bview st' 3 "songs" = some nb ∧
      nb.getLast? = some (_hash_text "(нет данных)") :=
  ⟨rfl, pick_empty_items_spec 3 "songs" 0 [] [] rfl⟩

/-! ### Facts for the fingerprint format (C9) -/

theorem length_bytesBE (n x : Nat) : (bytesBE n x).length = n := by
  induction n generalizing x with
  | zero => rfl
  | succ n ih => simp [bytesBE, ih]

theorem length_sha1Bytes (msg : List Nat) : (sha1Bytes msg).length = 20 := by
  simp [sha1Bytes, length_bytesBE]

theorem length_flatMap_byteHex (l : List Nat) : (l.flatMap byteHexChars).length = 2 * l.length := by
  induction l with
  | nil => rfl
  | cons a t ih =>
    simp [byteHexChars, ih]
    omega

theorem hexChar_mem (n : Nat) : hexChar n ∈ hexDigits := by
  unfold hexChar
  by_cases h : n < hexDigits.length
  · exact getD_mem _ _ _ h
  · rw [List.getD_eq_default _ _ (by omega)]
    decide

/-- C9: `_hash_text` is deterministic, always returns a string of exactly 16
lowercase hexadecimal characters, and that string is the first 16 hex
characters of the SHA-1 digest of the UTF-8 encoding of the text. -/
theorem hash_text_format (s : String) :
    (∀ t : String, s = t → _hash_text s = _hash_text t) ∧
    (_hash_text s).length = 16 ∧
    (∀ c ∈ (_hash_text s).data, c ∈ hexDigits) ∧
    _hash_text s = String.mk (((sha1Bytes (utf8Encode s)).flatMap byteHexChars).take 16) := by
  refine ⟨fun t ht => by rw [ht], ?_, ?_, rfl⟩
  · have h40 : ((sha1Bytes (utf8Encode s)).flatMap byteHexChars).length = 40 := by
      rw [length_flatMap_byteHex, length_sha1Bytes]
    show (String.mk _).length = 16
    simp [String.length, h40]
  · intro c hc
    have hc' : c ∈ (sha1Bytes (utf8Encode s)).flatMap byteHexChars :=
      List.mem_of_mem_take (by simpa using hc)
    obtain ⟨b0, _, hb0⟩ := List.mem_flatMap.mp hc'
    simp [byteHexChars] at hb0
    rcases hb0 with rfl | rfl <;> exact hexChar_mem _

theorem hash_text_format_witness :
    (_hash_text "a" = _hash_text "a") ∧ (_hash_text "a").length = 16 ∧ '8' ∈ hexDigits :=
  ⟨(hash_text_format "a").1 "a" rfl, (hash_text_format "a").2.1,
    (hash_text_format "a").2.2.1 '8' (by decide)⟩

/-! ### Behaviour of the image picker -/

/-- One `pick_image_non_repeating` call with a non-empty image listing:
the marker is set to the selected name (and persisted) regardless of
whether reading the bytes succeeds, and the payload is the selected name
and bytes when they are readable. -/
theorem pick_image_spec (user_id : Nat) (cat_key : String)
    (folder : Option (List FileEntry)) (i : Nat) (st : St)
    (hne : imgFiles folder ≠ []) :
    ∃ st', pick_image_non_repeating user_id cat_key folder i st =
        ((imgPicked user_id cat_key folder i st).bytes.map
          (fun bs => ((imgPicked user_id cat_key folder i st).name, bs)), st') ∧
      lastImageView st' user_id cat_key =
        some (JVal.str (imgPicked user_id cat_key folder i st).name) := by
  cases hu : lookupKey st (toString user_id) with
  | none =>
    have hsd : setdefault st (toString user_id) ([] : UMap) =
        ([], st ++ [(toString user_id, [])]) := setdefault_absent _ _ _ hu
    have hsk : setKey (st ++ [(toString user_id, ([] : UMap))]) (toString user_id)
        [((cat_key ++ "__last_image"), JVal.str (imgPicked user_id cat_key folder i st).name)] =
        st ++ [(toString user_id,
          [((cat_key ++ "__last_image"),
            JVal.str (imgPicked user_id cat_key folder i st).name)])] :=
      setKey_append_self _ _ _ _ hu
    refine ⟨st ++ [(toString user_id,
      [((cat_key ++ "__last_image"),
        JVal.str (imgPicked user_id cat_key folder i st).name)])], ?_, ?_⟩
    · simp only [pick_image_non_repeating, if_neg hne, hsd, setKey, hsk]
      cases hbytes : (imgPicked user_id cat_key folder i st).bytes <;> simp [hbytes]
    · simp [lastImageView, lookupKey_append_self _ _ _ hu, lookupKey]
  | some u =>
    have hsd : setdefault st (toString user_id) ([] : UMap) = (u, st) :=
      setdefault_present _ _ _ _ hu
    refine ⟨setKey st (toString user_id)
      (setKey u (cat_key ++ "__last_image")
        (JVal.str (imgPicked user_id cat_key folder i st).name)), ?_, ?_⟩
    · simp only [pick_image_non_repeating, if_neg hne, hsd]
      cases hbytes : (imgPicked user_id cat_key folder i st).bytes <;> simp [hbytes]
    · simp [lastImageView, lookupKey_setKey_self]

/-- The selected entry is always one of the listed image files. -/
theorem imgPicked_mem (user_id : Nat) (cat_key : String)
    (folder : Option (List FileEntry)) (i : Nat) (st : St)
    (hne : imgFiles folder ≠ []) :
    imgPicked user_id cat_key folder i st ∈ imgFiles folder := by
  unfold imgPicked imgChoices
  by_cases h0 : (imgFiles folder).filter
      (fun p => neLast p.name (lastImageView st user_id cat_key)) = []
  · rw [if_pos h0]
    exact getD_mod_mem _ i _ hne
  · rw [if_neg h0]
    exact List.filter_subset' _ (getD_mod_mem _ i _ h0)

/-- C8: the Last Image Marker is updated to the selected filename and
persisted before the bytes are read, so a failing `read_bytes` yields a
`none` payload while the marker already records the selected filename. -/
theorem image_marker_set_before_read (user_id : Nat) (cat_key : String)
    (folder : Option (List FileEntry)) (i : Nat) (st : St)
    (hne : imgFiles folder ≠ [])
    (hbytes : (imgPicked user_id cat_key folder i st).bytes = none) :
    ∃ st', pick_image_non_repeating user_id cat_key folder i st = (none, st') ∧
      lastImageView st' user_id cat_key =
        some (JVal.str (imgPicked user_id cat_key folder i st).name) := by
  obtain ⟨st', h1, h2⟩ := pick_image_spec user_id cat_key folder i st hne
  rw [hbytes] at h1
  exact ⟨st', by simpa using h1, h2⟩

theorem image_marker_set_before_read_witness :
    imgFiles (some [⟨"a.jpg", true, none⟩]) ≠ [] ∧
    (imgPicked 1 "c" (some [⟨"a.jpg", true, none⟩]) 0 []).bytes = none ∧
    ∃ st', pick_image_non_repeating 1 "c" (some [⟨"a.jpg", true, none⟩]) 0 [] = (none, st') ∧
      lastImageView st' 1 "c" =
        some (JVal.str (imgPicked 1 "c" (some [⟨"a.jpg", true, none⟩]) 0 []).name) :=
  ⟨by decide, by decide,
    image_marker_set_before_read 1 "c" (some [⟨"a.jpg", true, none⟩]) 0 []
      (by decide) (by decide)⟩

/-- C5: with at least two (distinctly named) image files, two consecutive
image picks for the same (user, category) never return the same filename;
with exactly one image file, consecutive picks both return it, because the
exclusion of the marker's filename empties the candidate set and the code
falls back to the full listing. -/
theorem image_no_immediate_repeat :
    (∀ (user_id : Nat) (cat_key : String) (folder : Option (List FileEntry))
        (i j : Nat) (st st1 st2 : St) (n1 n2 : String) (b1 b2 : List Nat),
      2 ≤ (imgFiles folder).length →
      ((imgFiles folder).map FileEntry.name).Nodup →
      pick_image_non_repeating user_id cat_key folder i st = (some (n1, b1), st1) →
      pick_image_non_repeating user_id cat_key folder j st1 = (some (n2, b2), st2) →
      n1 ≠ n2) ∧
    (∀ (user_id : Nat) (cat_key : String) (folder : Option (List FileEntry))
        (i j : Nat) (st : St) (e : FileEntry) (bs : List Nat),
      imgFiles folder = [e] → e.bytes = some bs →
      ∃ st1 st2,
        pick_image_non_repeating user_id cat_key folder i st = (some (e.name, bs), st1) ∧
        pick_image_non_repeating user_id cat_key folder j st1 = (some (e.name, bs), st2)) := by
  constructor
  · intro user_id cat_key folder i j st st1 st2 n1 n2 b1 b2 h2 hnodup hc1 hc2
    have hne : imgFiles folder ≠ [] := by
      intro h
      rw [h] at h2
      simp at h2
    obtain ⟨st1', hp1, hm1⟩ := pick_image_spec user_id cat_key folder i st hne
    rw [hc1] at hp1
    simp only [Prod.mk.injEq] at hp1
    obtain ⟨hX1, hst1⟩ := hp1
    obtain ⟨bs0, _, hnb1⟩ := Option.map_eq_some'.mp hX1.symm
    simp only [Prod.mk.injEq] at hnb1
    have hn1 : n1 = (imgPicked user_id cat_key folder i st).name := hnb1.1.symm
    subst hn1
    have hm1' : lastImageView st1 user_id cat_key =
        some (JVal.str (imgPicked user_id cat_key folder i st).name) := by
      rw [hst1]
      exact hm1
    obtain ⟨st2', hp2, hm2⟩ := pick_image_spec user_id cat_key folder j st1 hne
    rw [hc2] at hp2
    simp only [Prod.mk.injEq] at hp2
    obtain ⟨hX2, hst2⟩ := hp2
    obtain ⟨bs2', _, hnb2⟩ := Option.map_eq_some'.mp hX2.symm
    simp only [Prod.mk.injEq] at hnb2
    have hn2 : n2 = (imgPicked user_id cat_key folder j st1).name := hnb2.1.symm
    subst hn2
    obtain ⟨eA, eB, rest, hAB⟩ : ∃ eA eB rest, imgFiles folder = eA :: eB :: rest := by
      cases himg : imgFiles folder with
      | nil => exact absurd himg hne
      | cons eA t =>
        cases t with
        | nil =>
          rw [himg] at h2
          simp at h2
        | cons eB rest => exact ⟨eA, eB, rest, rfl⟩
    have hABne : eA.name ≠ eB.name := by
      rw [hAB] at hnodup
      simp [List.nodup_cons] at hnodup
      exact hnodup.1.1
    have hch0ne : (imgFiles folder).filter
        (fun p => neLast p.name (lastImageView st1 user_id cat_key)) ≠ [] := by
      rcases eq_or_ne eA.name (imgPicked user_id cat_key folder i st).name with hA | hA
      · have hBne : eB.name ≠ (imgPicked user_id cat_key folder i st).name := by
          rw [← hA]
          exact Ne.symm hABne
        have : eB ∈ (imgFiles folder).filter
            (fun p => neLast p.name (lastImageView st1 user_id cat_key)) := by
          refine List.mem_filter.mpr ⟨by rw [hAB]; simp, ?_⟩
          rw [hm1']
          simpa [neLast] using hBne
        exact List.ne_nil_of_mem this
      · have : eA ∈ (imgFiles folder).filter
            (fun p => neLast p.name (lastImageView st1 user_id cat_key)) := by
          refine List.mem_filter.mpr ⟨by rw [hAB]; simp, ?_⟩
          rw [hm1']
          simpa [neLast] using hA
        exact List.ne_nil_of_mem this
    have hpicked2 : imgPicked user_id cat_key folder j st1 ∈ (imgFiles folder).filter
        (fun p => neLast p.name (lastImageView st1 user_id cat_key)) := by
      unfold imgPicked imgChoices
      rw [if_neg hch0ne]
      exact getD_mod_mem _ j _ hch0ne
    have hne2 := (List.mem_filter.mp hpicked2).2
    rw [hm1'] at hne2
    simp [neLast] at hne2
    exact fun h => hne2 h.symm
  · intro user_id cat_key folder i j st e bs hone hbs
    have hne : imgFiles folder ≠ [] := by
      rw [hone]
      simp
    have hchoice : ∀ (k : Nat) (st0 : St), imgPicked user_id cat_key folder k st0 = e := by
      intro k st0
      unfold imgPicked imgChoices
      rw [hone]
      by_cases hf : [e].filter
          (fun p => neLast p.name (lastImageView st0 user_id cat_key)) = []
      · rw [if_pos hf]
        simp [Nat.mod_one]
      · rw [if_neg hf]
        have hfe : [e].filter
            (fun p => neLast p.name (lastImageView st0 user_id cat_key)) = [e] := by
          cases hpe : neLast e.name (lastImageView st0 user_id cat_key)
          · exact absurd (by simp [List.filter, hpe]) hf
          · simp [List.filter, hpe]
        rw [hfe]
        simp [Nat.mod_one]
    obtain ⟨st1', hp1, _⟩ := pick_image_spec user_id cat_key folder i st hne
    rw [hchoice i st, hbs] at hp1
    obtain ⟨st2', hp2, _⟩ := pick_image_spec user_id cat_key folder j st1' hne
    rw [hchoice j st1', hbs] at hp2
    exact ⟨st1', st2', by simpa using hp1, by simpa using hp2⟩

theorem image_no_immediate_repeat_witness :
    (2 ≤ (imgFiles (some [⟨"a.jpg", true, some [1]⟩, ⟨"b.jpg", true, some [2]⟩])).length ∧
      ((imgFiles (some [⟨"a.jpg", true, some [1]⟩,
        ⟨"b.jpg", true, some [2]⟩])).map FileEntry.name).Nodup ∧
      pick_image_non_repeating 1 "c"
          (some [⟨"a.jpg", true, some [1]⟩, ⟨"b.jpg", true, some [2]⟩]) 0 [] =
        (some ("a.jpg", [1]), [("1", [("c__last_image", JVal.str "a.jpg")])]) ∧
      pick_image_non_repeating 1 "c"
          (some [⟨"a.jpg", true, some [1]⟩, ⟨"b.jpg", true, some [2]⟩]) 0
          [("1", [("c__last_image", JVal.str "a.jpg")])] =
        (some ("b.jpg", [2]), [("1", [("c__last_image", JVal.str "b.jpg")])]) ∧
      "a.jpg" ≠ "b.jpg") ∧
    (imgFiles (some [⟨"x.jpg", true, some [9]⟩]) = [⟨"x.jpg", true, some [9]⟩] ∧
      (FileEntry.mk "x.jpg" true (some [9])).bytes = some [9] ∧
      ∃ st1 st2,
        pick_image_non_repeating 2 "d" (some [⟨"x.jpg", true, some [9]⟩]) 5 [] =
          (some ("x.jpg", [9]), st1) ∧
        pick_image_non_repeating 2 "d" (some [⟨"x.jpg", true, some [9]⟩]) 7 st1 =
          (some ("x.jpg", [9]), st2)) := by
  refine ⟨⟨by decide, by decide, by decide, by decide, ?_⟩, by decide, by decide, ?_⟩
  · exact image_no_immediate_repeat.1 1 "c"
      (some [⟨"a.jpg", true, some [1]⟩, ⟨"b.jpg", true, some [2]⟩]) 0 0 []
      [("1", [("c__last_image", JVal.str "a.jpg")])]
      [("1", [("c__last_image", JVal.str "b.jpg")])]
      "a.jpg" "b.jpg" [1] [2] (by decide) (by decide) (by decide) (by decide)
  · exact image_no_immediate_repeat.2 2 "d" (some [⟨"x.jpg", true, some [9]⟩]) 5 7 []
      ⟨"x.jpg", true, some [9]⟩ [9] (by decide) (by decide)

end Oracle
